import Mathlib

/-
  Verification development for table-harvester (src/table-harvester.js).

  The script extracts HTML tables to CSV.  The definitions below are a
  shallow embedding of its core logic:
    * normalizeColumnName   (lines 114-128 of table-harvester.js),
    * the per-table extraction loop of main() (lines 163-222),
    * the table-name locator (lines 150-156),
    * the output-file-name / write decision (lines 224-240).

  Modelling conventions:
    * Strings are Lean strings (lists of characters).  JavaScript
      toLowerCase is modelled by its ASCII case mapping: every character
      the two mappings treat differently is outside [a-z0-9] both before
      and after lowering, hence is folded to an underscore by the next
      stage of normalizeColumnName either way.
    * A cheerio object/set is modelled by a list in document order;
      JavaScript object field update is modelled by setField (insert or
      overwrite, insertion order kept) and the allHeaders Set by addCol
      (append if absent).
    * A table is a list of rows; a row is a list of cells; a cell carries
      its th/td flag, its attributes and its child nodes (a tree, since
      the extractor searches cell descendants).
-/

/-- Lowercase-alphanumeric test, the character class [a-z0-9] of the
regex in normalizeColumnName. -/
def isLN (c : Char) : Bool :=
  (97 ≤ c.toNat && c.toNat ≤ 122) || (48 ≤ c.toNat && c.toNat ≤ 57)

/-- ASCII case mapping of JavaScript toLowerCase (see the modelling note
above: non-ASCII case pairs are immaterial after the replacement stage). -/
def jsToLower (c : Char) : Char :=
  if 65 ≤ c.toNat && c.toNat ≤ 90 then Char.ofNat (c.toNat + 32) else c

/-- One character of the stage replace(/[^a-z0-9]/g, the underscore). -/
def replUnd (c : Char) : Char :=
  if isLN c then c else '_'

/-- The stage replace of runs of underscores by a single underscore. -/
def collapseUnd : List Char → List Char
  | [] => []
  | a :: rest =>
    match rest with
    | [] => [a]
    | b :: _ =>
      if a == '_' && b == '_' then collapseUnd rest else a :: collapseUnd rest

/-- Drop a leading run of underscores. -/
def dropUnd (l : List Char) : List Char :=
  l.dropWhile (fun c => c == '_')

/-- The stage replace of leading and trailing underscore runs by nothing. -/
def trimUnd (l : List Char) : List Char :=
  (dropUnd (dropUnd l).reverse).reverse

/-- Character-list body of normalizeColumnName: lowercase, replace
non-alphanumerics by underscores, collapse underscore runs, trim
leading/trailing underscores. -/
def normalizeList (l : List Char) : List Char :=
  trimUnd (collapseUnd ((l.map jsToLower).map replUnd))

/-- normalizeColumnName from table-harvester.js (lines 114-128). -/
def normalizeColumnName (s : String) : String :=
  ⟨normalizeList s.data⟩

/-- Whitespace test of the trim calls (ASCII whitespace). -/
def isWS (c : Char) : Bool :=
  c == ' ' || c == '\t' || c == '\n' || c == '\r'

/-- JavaScript String.prototype.trim on the character list. -/
def trimList (l : List Char) : List Char :=
  ((l.dropWhile isWS).reverse.dropWhile isWS).reverse

/-- JavaScript String.prototype.trim. -/
def jsTrim (s : String) : String :=
  ⟨trimList s.data⟩

/-- An HTML node inside a table cell: a text node, or an element with a
tag, attributes and children. -/
inductive HtmlNode where
  | text : String → HtmlNode
  | elem : String → List (String × String) → List HtmlNode → HtmlNode

mutual

/-- Concatenated text content of one node (cheerio text()). -/
def textOfN : HtmlNode → List Char
  | HtmlNode.text s => s.data
  | HtmlNode.elem _ _ cs => textOfL cs

/-- Concatenated text content of a node list, document order. -/
def textOfL : List HtmlNode → List Char
  | [] => []
  | n :: ns => textOfN n ++ textOfL ns

end

mutual

/-- All descendant elements with the given tag, document order, the
element itself included before its own matching descendants
(cheerio find(tag) from a node). -/
def findInNode (tag : String) : HtmlNode → List HtmlNode
  | HtmlNode.text _ => []
  | HtmlNode.elem t a cs =>
    (if t == tag then [HtmlNode.elem t a cs] else []) ++ findInList tag cs

/-- All descendant elements with the given tag below a node list,
document order (cheerio find(tag) from a cell). -/
def findInList (tag : String) : List HtmlNode → List HtmlNode
  | [] => []
  | n :: ns => findInNode tag n ++ findInList tag ns

end

/-- A table cell: th/td flag, own attributes, child nodes. -/
structure HtmlCell where
  thFlag : Bool
  attrs : List (String × String)
  children : List HtmlNode

/-- A table row: its cells in document order. -/
structure HtmlRow where
  cells : List HtmlCell

/-- A table: its tr rows in document order. -/
structure HtmlTable where
  rows : List HtmlRow

/-- A Record: one flat output row, column name to value, insertion
order, modelling a JavaScript object with non-index string keys. -/
abbrev Record := List (String × String)

/-- Extraction state: the rowData object under construction and the
allHeaders registry (insertion-ordered set). -/
abbrev ExtState := Record × List String

/-- JavaScript object field write: overwrite in place if the key is
present, else append. -/
def setField (r : Record) (k v : String) : Record :=
  if r.any (fun p => p.1 == k) then
    r.map (fun p => if p.1 == k then (k, v) else p)
  else r ++ [(k, v)]

/-- allHeaders.add: append the name if it is not yet registered. -/
def addCol (cols : List String) (k : String) : List String :=
  if k ∈ cols then cols else cols ++ [k]

/-- One paired write: rowData[k] = v together with allHeaders.add(k). -/
def addEntry (st : ExtState) (k v : String) : ExtState :=
  (setField st.1 k v, addCol st.2 k)

/-- Attribute lookup on an element (cheerio attr(name)). -/
def lookupAttr (attrs : List (String × String)) (name : String) : Option String :=
  (attrs.find? (fun p => p.1 == name)).map (fun p => p.2)

/-- Body of one iteration of the forEach over configured attributes:
emit pre_attribute when the attribute is present with a truthy
(non-empty) value. -/
def attrStep (src : List (String × String)) (pre : String) (st : ExtState) (a : String) : ExtState :=
  match lookupAttr src a with
  | some v => if v == "" then st else addEntry st (pre ++ "_" ++ a) v
  | none => st

/-- Processing of the i-th matched nested element inside a cell: its
_content field, then its configured attributes. -/
def procEl (attrsCfg : List String) (base tag : String) (st : ExtState) (ie : Nat × HtmlNode) : ExtState :=
  match ie.2 with
  | HtmlNode.text _ => st
  | HtmlNode.elem _ eattrs cs =>
    attrsCfg.foldl (attrStep eattrs (base ++ "_" ++ tag ++ toString ie.1))
      (addEntry st (base ++ "_" ++ tag ++ toString ie.1 ++ "_content") (jsTrim ⟨textOfL cs⟩))

/-- Base column name of the cell at a 0-based index:
headers[colIndex] when that entry exists and is truthy (non-empty),
else the positional fallback name. -/
def baseColumnName (headers : List String) (i : Nat) : String :=
  match headers.get? i with
  | some h => if h == "" then "Column" ++ toString i else h
  | none => "Column" ++ toString i

/-- Processing of one td cell (0-based index within the td set of its
row): the _content field, then cell attributes, then nested elements. -/
def procCell (attrsCfg elemsCfg : List String) (headers : List String) (st : ExtState) (ic : Nat × HtmlCell) : ExtState :=
  elemsCfg.foldl
    (fun s e => ((findInList e ic.2.children).enum).foldl
      (procEl attrsCfg (baseColumnName headers ic.1) e) s)
    (attrsCfg.foldl (attrStep ic.2.attrs (baseColumnName headers ic.1))
      (addEntry st (baseColumnName headers ic.1 ++ "_content")
        (jsTrim ⟨textOfL ic.2.children⟩)))

/-- Processing of one data row: fold over its td cells (th cells are
not selected by the td query), starting from an empty rowData and the
current registry. -/
def procRow (attrsCfg elemsCfg headers : List String) (row : HtmlRow) (cols : List String) : ExtState :=
  ((row.cells.filter (fun c => !c.thFlag)).enum).foldl
    (procCell attrsCfg elemsCfg headers) ([], cols)

/-- Does a row contain a th cell. -/
def rowHasTh (row : HtmlRow) : Bool :=
  row.cells.any (fun c => c.thFlag)

/-- Normalized texts of the th cells of a row, in order. -/
def rowThHeaders (row : HtmlRow) : List String :=
  (row.cells.filter (fun c => c.thFlag)).map
    (fun c => normalizeColumnName (jsTrim ⟨textOfL c.children⟩))

/-- The row loop of main() (lines 163-219): while no header row has been
seen, a row either becomes the header row or is skipped; afterwards each
row is processed as a data row and its rowData is appended when
non-empty. -/
def extractAux (attrsCfg elemsCfg : List String) :
    Bool → List String → List Record → List String → List HtmlRow → List Record × List String
  | _, _, td, cols, [] => (td, cols)
  | false, hdrs, td, cols, row :: rest =>
    if rowHasTh row then
      extractAux attrsCfg elemsCfg true (hdrs ++ rowThHeaders row) td cols rest
    else
      extractAux attrsCfg elemsCfg false hdrs td cols rest
  | true, hdrs, td, cols, row :: rest =>
    let p := procRow attrsCfg elemsCfg hdrs row cols
    if p.1 = [] then extractAux attrsCfg elemsCfg true hdrs td p.2 rest
    else extractAux attrsCfg elemsCfg true hdrs (td ++ [p.1]) p.2 rest

/-- Extraction of one table: the record sequence (tableData) and the
ColumnRegistry (allHeaders in insertion order). -/
def extractTable (attrsCfg elemsCfg : List String) (t : HtmlTable) : List Record × List String :=
  extractAux attrsCfg elemsCfg false [] [] [] t.rows

/-- The pure data pass: every row is treated as a data row under a fixed
header list.  Used to state what extraction does after the header row. -/
def dataPass (attrsCfg elemsCfg hdrs : List String) :
    List HtmlRow → List Record → List String → List Record × List String
  | [], td, cols => (td, cols)
  | row :: rest, td, cols =>
    let p := procRow attrsCfg elemsCfg hdrs row cols
    if p.1 = [] then dataPass attrsCfg elemsCfg hdrs rest td p.2
    else dataPass attrsCfg elemsCfg hdrs rest (td ++ [p.1]) p.2

/-- A sibling element preceding a table: tag, class list, text content. -/
structure SibElem where
  tag : String
  classes : List String
  text : String

/-- Matching of one configured header selector against an element:
a class selector (leading dot) matches by class, otherwise by tag. -/
def matchesSel (sel : String) (e : SibElem) : Bool :=
  if sel.startsWith "." then e.classes.contains (sel.drop 1) else e.tag == sel

/-- Matching of any of the configured header selectors. -/
def matchesAny (sels : List String) (e : SibElem) : Bool :=
  sels.any (fun s => matchesSel s e)

/-- The segment of a character list before the first occurrence of a
(non-empty) separator: split(sep)[0] of JavaScript. -/
def firstSegment (sep : List Char) : List Char → List Char
  | [] => []
  | c :: rest =>
    if sep.isPrefixOf (c :: rest) then [] else c :: firstSegment sep rest

/-- The part of a string before the first occurrence of the separator. -/
def splitHead (sep : String) (s : String) : String :=
  ⟨firstSegment sep.data s.data⟩

/-- Table-name locator of main() (lines 150-156): prevAll(selector)
lists the preceding siblings that match, nearest first; first() takes
the nearest; its text before the separator is normalized.  The sibs
argument lists the preceding sibling elements nearest-first. -/
def tableNameOf (sels : List String) (sep : String) (sibs : List SibElem) : String :=
  match (sibs.filter (matchesAny sels)).head? with
  | some e => normalizeColumnName (splitHead sep e.text)
  | none => ""

/-- Restatement of the table-name contract in the words of the spec
(section 4.1): search backward through the preceding siblings for the
nearest element matching any header selector; if found, normalize the
portion of its text before the first separator; else the empty string. -/
def tableNameSpec (sels : List String) (sep : String) (sibs : List SibElem) : String :=
  match sibs.find? (matchesAny sels) with
  | some e => normalizeColumnName (splitHead sep e.text)
  | none => ""

/-- Output file name (lines 229-232): with the table name when it is
truthy (non-empty), without it otherwise. -/
def outputFileName (base : String) (idx : Nat) (tname : String) : String :=
  if tname ≠ "" then base ++ ".table_" ++ toString idx ++ "." ++ tname ++ ".csv"
  else base ++ ".table_" ++ toString idx ++ ".csv"

/-- Write decision (lines 224-240): a file (with its name) is produced
exactly when there is at least one record; the none case is the
informational no-data notice, not a failure. -/
def writeOutcome (base : String) (idx : Nat) (tname : String) (records : List Record) : Option String :=
  if 0 < records.length then some (outputFileName base idx tname) else none

/-- Characters of a normalized name: lowercase-alphanumeric or underscore. -/
def goodChar (c : Char) : Bool := isLN c || c == '_'

/-- No two adjacent underscores. -/
def ne2 (a b : Char) : Prop := ¬(a = '_' ∧ b = '_')

theorem goodChar_replUnd (c : Char) : goodChar (replUnd c) = true := by
  unfold replUnd
  by_cases h : isLN c = true
  · rw [if_pos h]
    simp [goodChar, h]
  · rw [if_neg h]
    decide

theorem jsToLower_fix (c : Char) (h : goodChar c = true) : jsToLower c = c := by
  unfold jsToLower
  split
  case isTrue hc =>
    exfalso
    simp only [goodChar, isLN, Bool.or_eq_true, Bool.and_eq_true, decide_eq_true_eq,
      beq_iff_eq] at h
    rw [Bool.and_eq_true] at hc
    simp only [decide_eq_true_eq] at hc
    rcases h with (⟨a1, a2⟩ | ⟨a1, a2⟩) | rfl
    · omega
    · omega
    · exact absurd hc (by decide)
  case isFalse => rfl

theorem replUnd_fix (c : Char) (h : goodChar c = true) : replUnd c = c := by
  unfold replUnd
  split
  · rfl
  case isFalse hn =>
    simp only [goodChar, Bool.or_eq_true, beq_iff_eq] at h
    rcases h with hl | rfl
    · exact absurd hl hn
    · rfl

theorem map_fix {f : Char → Char} (hf : ∀ c, goodChar c = true → f c = c) :
    ∀ l : List Char, (∀ c ∈ l, goodChar c = true) → l.map f = l := by
  intro l hl
  induction l with
  | nil => rfl
  | cons a t ih =>
    simp only [List.map_cons]
    rw [hf a (hl a (by simp)), ih (fun c hc => hl c (by simp [hc]))]

theorem collapseUnd_nil : collapseUnd [] = [] := rfl

theorem collapseUnd_one (a : Char) : collapseUnd [a] = [a] := rfl

theorem collapseUnd_cons2 (a b : Char) (t : List Char) :
    collapseUnd (a :: b :: t) =
      if a == '_' && b == '_' then collapseUnd (b :: t) else a :: collapseUnd (b :: t) := rfl

theorem mem_collapseUnd : ∀ (l : List Char) (c : Char), c ∈ collapseUnd l → c ∈ l := by
  intro l
  induction l with
  | nil => intro c h; exact absurd h (by simp [collapseUnd_nil])
  | cons a t ih =>
    intro c h
    cases t with
    | nil => simpa [collapseUnd_one] using h
    | cons b t2 =>
      rw [collapseUnd_cons2] at h
      by_cases hab : (a == '_' && b == '_') = true
      · rw [if_pos hab] at h
        exact List.mem_cons_of_mem a (ih c h)
      · rw [if_neg hab] at h
        rcases List.mem_cons.mp h with rfl | h2
        · exact List.mem_cons_self c _
        · exact List.mem_cons_of_mem a (ih c h2)

theorem collapseUnd_head : ∀ (t : List Char) (a : Char), (collapseUnd (a :: t)).head? = some a := by
  intro t
  induction t with
  | nil => intro a; rfl
  | cons b t2 ih =>
    intro a
    rw [collapseUnd_cons2]
    by_cases hab : (a == '_' && b == '_') = true
    · rw [if_pos hab, ih b]
      rw [Bool.and_eq_true, beq_iff_eq, beq_iff_eq] at hab
      rw [hab.1, hab.2]
    · rw [if_neg hab]; rfl

theorem collapseUnd_chain : ∀ l : List Char, List.Chain' ne2 (collapseUnd l) := by
  intro l
  induction l with
  | nil => simp [collapseUnd_nil]
  | cons a t ih =>
    cases t with
    | nil => rw [collapseUnd_one]; exact List.chain'_singleton a
    | cons b t2 =>
      rw [collapseUnd_cons2]
      by_cases hab : (a == '_' && b == '_') = true
      · rw [if_pos hab]; exact ih
      · rw [if_neg hab]
        rw [List.chain'_cons']
        refine ⟨?_, ih⟩
        intro y hy
        rw [collapseUnd_head t2 b] at hy
        simp only [Option.mem_def, Option.some.injEq] at hy
        subst hy
        intro ⟨h1, h2⟩
        exact hab (by rw [h1, h2]; decide)

theorem collapseUnd_id : ∀ l : List Char, List.Chain' ne2 l → collapseUnd l = l := by
  intro l
  induction l with
  | nil => intro _; rfl
  | cons a t ih =>
    intro h
    cases t with
    | nil => rfl
    | cons b t2 =>
      rw [collapseUnd_cons2]
      rw [List.chain'_cons] at h
      have hne : (a == '_' && b == '_') ≠ true := by
        intro hab
        rw [Bool.and_eq_true, beq_iff_eq, beq_iff_eq] at hab
        exact h.1 hab
      rw [if_neg hne, ih h.2]

theorem dropUnd_cons (c : Char) (t : List Char) :
    dropUnd (c :: t) = if (c == '_') = true then dropUnd t else c :: t := by
  rw [dropUnd, List.dropWhile_cons]
  by_cases hc : (c == '_') = true
  · rw [if_pos hc, if_pos hc]
    rfl
  · rw [if_neg hc, if_neg hc]

theorem mem_dropUnd (l : List Char) (c : Char) (h : c ∈ dropUnd l) : c ∈ l := by
  induction l with
  | nil => exact absurd h (by simp [dropUnd])
  | cons a t ih =>
    rw [dropUnd_cons] at h
    by_cases ha : (a == '_') = true
    · rw [if_pos ha] at h
      exact List.mem_cons_of_mem a (ih h)
    · rw [if_neg ha] at h
      exact h

theorem head_dropUnd : ∀ (l : List Char) (a : Char), (dropUnd l).head? = some a → a ≠ '_' := by
  intro l
  induction l with
  | nil => intro a h; exact absurd h (by simp [dropUnd])
  | cons c t ih =>
    intro a h
    rw [dropUnd_cons] at h
    by_cases hc : (c == '_') = true
    · rw [if_pos hc] at h
      exact ih a h
    · rw [if_neg hc] at h
      simp only [List.head?_cons, Option.some.injEq] at h
      subst h
      intro he
      subst he
      exact hc (by decide)

theorem getLast_dropUnd : ∀ l : List Char, dropUnd l ≠ [] → (dropUnd l).getLast? = l.getLast? := by
  intro l
  induction l with
  | nil => intro h; exact absurd rfl h
  | cons c t ih =>
    intro h
    rw [dropUnd_cons] at h ⊢
    by_cases hc : (c == '_') = true
    · rw [if_pos hc] at h ⊢
      have ht : t ≠ [] := by
        intro he
        subst he
        exact h rfl
      obtain ⟨x, t2, rfl⟩ := List.exists_cons_of_ne_nil ht
      rw [ih h, List.getLast?_cons_cons]
    · rw [if_neg hc]

theorem chain_dropUnd : ∀ l : List Char, List.Chain' ne2 l → List.Chain' ne2 (dropUnd l) := by
  intro l
  induction l with
  | nil => intro h; simp [dropUnd]
  | cons c t ih =>
    intro h
    rw [dropUnd_cons]
    by_cases hc : (c == '_') = true
    · rw [if_pos hc]
      exact ih h.tail
    · rw [if_neg hc]
      exact h

theorem chain_reverse_ne2 (l : List Char) (h : List.Chain' ne2 l) : List.Chain' ne2 l.reverse := by
  rw [List.chain'_reverse]
  exact h.imp (fun a b hab => fun hba => hab ⟨hba.2, hba.1⟩)

theorem dropUnd_id (l : List Char) (h : ∀ a, l.head? = some a → a ≠ '_') : dropUnd l = l := by
  cases l with
  | nil => rfl
  | cons c t =>
    rw [dropUnd_cons, if_neg]
    intro hc
    rw [beq_iff_eq] at hc
    exact h c rfl hc

theorem trimUnd_head (l : List Char) (a : Char) (h : (trimUnd l).head? = some a) : a ≠ '_' := by
  unfold trimUnd at h
  rw [List.head?_reverse] at h
  by_cases hn : dropUnd ((dropUnd l).reverse) = []
  · rw [hn] at h
    exact absurd h (by simp)
  · rw [getLast_dropUnd _ hn, List.getLast?_reverse] at h
    exact head_dropUnd l a h

theorem trimUnd_last (l : List Char) (a : Char) (h : (trimUnd l).getLast? = some a) : a ≠ '_' := by
  unfold trimUnd at h
  rw [List.getLast?_reverse] at h
  exact head_dropUnd _ a h

theorem trimUnd_chain (l : List Char) (h : List.Chain' ne2 l) : List.Chain' ne2 (trimUnd l) := by
  unfold trimUnd
  exact chain_reverse_ne2 _ (chain_dropUnd _ (chain_reverse_ne2 _ (chain_dropUnd _ h)))

theorem mem_trimUnd (l : List Char) (c : Char) (h : c ∈ trimUnd l) : c ∈ l := by
  unfold trimUnd at h
  rw [List.mem_reverse] at h
  have h2 := mem_dropUnd _ _ h
  rw [List.mem_reverse] at h2
  exact mem_dropUnd _ _ h2

theorem trimUnd_id (l : List Char)
    (h1 : ∀ a, l.head? = some a → a ≠ '_')
    (h2 : ∀ a, l.getLast? = some a → a ≠ '_') : trimUnd l = l := by
  unfold trimUnd
  rw [dropUnd_id l h1]
  rw [dropUnd_id l.reverse (by intro a ha; rw [List.head?_reverse] at ha; exact h2 a ha)]
  exact List.reverse_reverse l

theorem norm_good (l : List Char) : ∀ c ∈ normalizeList l, goodChar c = true := by
  intro c hc
  unfold normalizeList at hc
  have hc2 := mem_collapseUnd _ _ (mem_trimUnd _ _ hc)
  rw [List.mem_map] at hc2
  obtain ⟨d, _, rfl⟩ := hc2
  exact goodChar_replUnd d

theorem norm_chain (l : List Char) : List.Chain' ne2 (normalizeList l) :=
  trimUnd_chain _ (collapseUnd_chain _)

theorem norm_head (l : List Char) : ∀ a, (normalizeList l).head? = some a → a ≠ '_' :=
  fun a h => trimUnd_head _ a h

theorem norm_last (l : List Char) : ∀ a, (normalizeList l).getLast? = some a → a ≠ '_' :=
  fun a h => trimUnd_last _ a h

theorem norm_fix (l : List Char) (hg : ∀ c ∈ l, goodChar c = true)
    (hch : List.Chain' ne2 l)
    (hh : ∀ a, l.head? = some a → a ≠ '_')
    (hl : ∀ a, l.getLast? = some a → a ≠ '_') : normalizeList l = l := by
  unfold normalizeList
  rw [map_fix jsToLower_fix l hg, map_fix replUnd_fix l hg, collapseUnd_id l hch,
    trimUnd_id l hh hl]

theorem goodChar_iff (c : Char) :
    goodChar c = true ↔ ('a' ≤ c ∧ c ≤ 'z') ∨ ('0' ≤ c ∧ c ≤ '9') ∨ c = '_' := by
  unfold goodChar isLN
  simp only [Bool.or_eq_true, Bool.and_eq_true, decide_eq_true_eq, beq_iff_eq]
  exact ⟨fun h => by tauto, fun h => by tauto⟩

theorem normalize_idempotent (s : String) :
    normalizeColumnName (normalizeColumnName s) = normalizeColumnName s := by
  unfold normalizeColumnName
  congr 1
  exact norm_fix _ (norm_good s.data) (norm_chain s.data) (norm_head s.data) (norm_last s.data)

theorem normalize_shape (s : String) :
    normalizeColumnName s = "" ∨
    ((∀ c ∈ (normalizeColumnName s).data,
        ('a' ≤ c ∧ c ≤ 'z') ∨ ('0' ≤ c ∧ c ≤ '9') ∨ c = '_') ∧
     List.Chain' (fun a b => ¬(a = '_' ∧ b = '_')) (normalizeColumnName s).data ∧
     (∀ a, (normalizeColumnName s).data.head? = some a → a ≠ '_') ∧
     (∀ a, (normalizeColumnName s).data.getLast? = some a → a ≠ '_')) := by
  right
  refine ⟨?_, norm_chain s.data, norm_head s.data, norm_last s.data⟩
  intro c hc
  exact (goodChar_iff c).mp (norm_good s.data c hc)

/-- Generic preservation of a predicate along a left fold. -/
theorem foldl_pres {σ α : Type} {P : σ → Prop} {f : σ → α → σ}
    (hstep : ∀ s a, P s → P (f s a)) :
    ∀ (l : List α) (s : σ), P s → P (l.foldl f s) := by
  intro l
  induction l with
  | nil => intro s hs; exact hs
  | cons a t ih =>
    intro s hs
    exact ih (f s a) (hstep s a hs)

/-- Keys of a Record, in insertion order. -/
def keysOf (r : Record) : List String := r.map Prod.fst

theorem keysOf_setField (r : Record) (k v k2 : String)
    (h : k2 ∈ keysOf (setField r k v)) : k2 = k ∨ k2 ∈ keysOf r := by
  unfold setField at h
  split at h
  · unfold keysOf at h ⊢
    rw [List.map_map, List.mem_map] at h
    obtain ⟨p, hp, hk⟩ := h
    simp only [Function.comp] at hk
    by_cases hpk : (p.1 == k) = true
    · rw [if_pos hpk] at hk
      exact Or.inl hk.symm
    · rw [if_neg hpk] at hk
      exact Or.inr (by rw [List.mem_map]; exact ⟨p, hp, hk⟩)
  · unfold keysOf at h ⊢
    rw [List.map_append, List.mem_append] at h
    rcases h with h | h
    · exact Or.inr h
    · simp only [List.map_cons, List.map_nil, List.mem_singleton] at h
      exact Or.inl h

theorem mem_addCol_self (cols : List String) (k : String) : k ∈ addCol cols k := by
  unfold addCol
  split
  · assumption
  · exact List.mem_append_right cols (List.mem_singleton.mpr rfl)

theorem mem_addCol (cols : List String) (k x : String) (h : x ∈ cols) : x ∈ addCol cols k := by
  unfold addCol
  split
  · exact h
  · exact List.mem_append_left _ h

/-- Invariant carried through cell processing: every key of the rowData
under construction is registered, and the initial registry is kept. -/
def StInv (cols0 : List String) (st : ExtState) : Prop :=
  (∀ k ∈ keysOf st.1, k ∈ st.2) ∧ ∀ x ∈ cols0, x ∈ st.2

theorem addEntry_inv (cols0 : List String) (st : ExtState) (k v : String)
    (h : StInv cols0 st) : StInv cols0 (addEntry st k v) := by
  refine ⟨?_, ?_⟩
  · intro k2 hk2
    rcases keysOf_setField st.1 k v k2 hk2 with rfl | hk
    · exact mem_addCol_self st.2 k2
    · exact mem_addCol st.2 k k2 (h.1 k2 hk)
  · intro x hx
    exact mem_addCol st.2 k x (h.2 x hx)

theorem attrStep_inv (cols0 : List String) (src : List (String × String)) (pre : String) :
    ∀ (st : ExtState) (a : String), StInv cols0 st → StInv cols0 (attrStep src pre st a) := by
  intro st a h
  unfold attrStep
  cases lookupAttr src a with
  | none => exact h
  | some v =>
    show StInv cols0 (if (v == "") = true then st else addEntry st (pre ++ "_" ++ a) v)
    by_cases hv : (v == "") = true
    · rw [if_pos hv]
      exact h
    · rw [if_neg hv]
      exact addEntry_inv cols0 st _ v h

theorem procEl_inv (cols0 : List String) (A : List String) (base tag : String) :
    ∀ (st : ExtState) (ie : Nat × HtmlNode), StInv cols0 st → StInv cols0 (procEl A base tag st ie) := by
  intro st ie h
  obtain ⟨i, n⟩ := ie
  cases n with
  | text s => exact h
  | elem t ea cs =>
    unfold procEl
    exact foldl_pres (attrStep_inv cols0 ea _) A _ (addEntry_inv cols0 st _ _ h)

theorem procCell_inv (cols0 : List String) (A E hdrs : List String) :
    ∀ (st : ExtState) (ic : Nat × HtmlCell), StInv cols0 st → StInv cols0 (procCell A E hdrs st ic) := by
  intro st ic h
  unfold procCell
  refine foldl_pres ?_ E _
    (foldl_pres (attrStep_inv cols0 ic.2.attrs _) A _ (addEntry_inv cols0 st _ _ h))
  intro s e hs
  exact foldl_pres (procEl_inv cols0 A _ e) _ s hs

theorem procRow_inv (A E hdrs : List String) (row : HtmlRow) (cols : List String) :
    StInv cols (procRow A E hdrs row cols) := by
  unfold procRow
  refine foldl_pres (procCell_inv cols A E hdrs) _ ([], cols) ⟨?_, fun x hx => hx⟩
  intro k hk
  exact absurd hk (by simp [keysOf])

theorem extractAux_nil_eq (A E : List String) (b : Bool) (hdrs : List String)
    (td : List Record) (cols : List String) :
    extractAux A E b hdrs td cols [] = (td, cols) := by
  cases b <;> rfl

theorem extractAux_false_cons (A E : List String) (hdrs : List String) (td : List Record)
    (cols : List String) (row : HtmlRow) (rest : List HtmlRow) :
    extractAux A E false hdrs td cols (row :: rest) =
      if rowHasTh row then extractAux A E true (hdrs ++ rowThHeaders row) td cols rest
      else extractAux A E false hdrs td cols rest := rfl

theorem extractAux_true_cons (A E : List String) (hdrs : List String) (td : List Record)
    (cols : List String) (row : HtmlRow) (rest : List HtmlRow) :
    extractAux A E true hdrs td cols (row :: rest) =
      if (procRow A E hdrs row cols).1 = []
      then extractAux A E true hdrs td (procRow A E hdrs row cols).2 rest
      else extractAux A E true hdrs (td ++ [(procRow A E hdrs row cols).1])
        (procRow A E hdrs row cols).2 rest := rfl

theorem extractAux_sup (A E : List String) :
    ∀ (rows : List HtmlRow) (b : Bool) (hdrs : List String) (td : List Record) (cols : List String),
      (∀ rec ∈ td, ∀ k ∈ keysOf rec, k ∈ cols) →
      ∀ rec ∈ (extractAux A E b hdrs td cols rows).1, ∀ k ∈ keysOf rec,
        k ∈ (extractAux A E b hdrs td cols rows).2 := by
  intro rows
  induction rows with
  | nil =>
    intro b hdrs td cols h rec hrec k hk
    rw [extractAux_nil_eq] at hrec ⊢
    exact h rec hrec k hk
  | cons row rest ih =>
    intro b hdrs td cols h rec hrec k hk
    cases b with
    | false =>
      rw [extractAux_false_cons] at hrec ⊢
      by_cases hth : rowHasTh row = true
      · rw [if_pos hth] at hrec ⊢
        exact ih true _ td cols h rec hrec k hk
      · rw [if_neg hth] at hrec ⊢
        exact ih false hdrs td cols h rec hrec k hk
    | true =>
      rw [extractAux_true_cons] at hrec ⊢
      have hp := procRow_inv A E hdrs row cols
      by_cases hnil : (procRow A E hdrs row cols).1 = []
      · rw [if_pos hnil] at hrec ⊢
        refine ih true hdrs td _ ?_ rec hrec k hk
        intro r2 hr2 k2 hk2
        exact hp.2 k2 (h r2 hr2 k2 hk2)
      · rw [if_neg hnil] at hrec ⊢
        refine ih true hdrs _ _ ?_ rec hrec k hk
        intro r2 hr2 k2 hk2
        rcases List.mem_append.mp hr2 with h2 | h2
        · exact hp.2 k2 (h r2 h2 k2 hk2)
        · rw [List.mem_singleton] at h2
          subst h2
          exact hp.1 k2 hk2

theorem setField_ne (r : Record) (k v : String) : setField r k v ≠ [] := by
  unfold setField
  split
  case isTrue hany =>
    intro h
    rw [List.map_eq_nil_iff] at h
    subst h
    simp at hany
  case isFalse =>
    intro h
    simp at h

theorem addEntry_ne (st : ExtState) (k v : String) : (addEntry st k v).1 ≠ [] :=
  setField_ne st.1 k v

theorem attrStep_ne (src : List (String × String)) (pre : String) :
    ∀ (st : ExtState) (a : String), st.1 ≠ [] → (attrStep src pre st a).1 ≠ [] := by
  intro st a h
  unfold attrStep
  cases lookupAttr src a with
  | none => exact h
  | some v =>
    show (if (v == "") = true then st else addEntry st (pre ++ "_" ++ a) v).1 ≠ []
    by_cases hv : (v == "") = true
    · rw [if_pos hv]
      exact h
    · rw [if_neg hv]
      exact addEntry_ne st _ v

theorem procEl_ne (A : List String) (base tag : String) :
    ∀ (st : ExtState) (ie : Nat × HtmlNode), st.1 ≠ [] → (procEl A base tag st ie).1 ≠ [] := by
  intro st ie h
  obtain ⟨i, n⟩ := ie
  cases n with
  | text s => exact h
  | elem t ea cs =>
    unfold procEl
    exact foldl_pres (fun s a hs => attrStep_ne ea _ s a hs) A _ (addEntry_ne st _ _)

theorem procCell_ne (A E hdrs : List String) (st : ExtState) (ic : Nat × HtmlCell) :
    (procCell A E hdrs st ic).1 ≠ [] := by
  unfold procCell
  refine foldl_pres (P := fun s : ExtState => s.1 ≠ []) ?_ E _
    (foldl_pres (P := fun s : ExtState => s.1 ≠ [])
      (fun s a hs => attrStep_ne ic.2.attrs _ s a hs) A _ (addEntry_ne st _ _))
  intro s e hs
  exact foldl_pres (P := fun s2 : ExtState => s2.1 ≠ [])
    (fun s2 a2 hs2 => procEl_ne A _ e s2 a2 hs2) _ s hs

theorem procRow_empty_cols (A E hdrs : List String) (row : HtmlRow) (cols : List String)
    (h : (procRow A E hdrs row cols).1 = []) : (procRow A E hdrs row cols).2 = cols := by
  unfold procRow at h ⊢
  exact foldl_pres (P := fun s : ExtState => s.1 = [] → s.2 = cols)
    (fun s a _ hnil => absurd hnil (procCell_ne A E hdrs s a)) _ ([], cols) (fun _ => rfl) h

theorem procRow_empty_iff (A E hdrs : List String) (row : HtmlRow) (cols : List String) :
    (procRow A E hdrs row cols).1 = [] ↔ row.cells.filter (fun c => !c.thFlag) = [] := by
  constructor
  · intro h
    by_contra hne
    obtain ⟨c, cs, hcs⟩ := List.exists_cons_of_ne_nil hne
    unfold procRow at h
    rw [hcs, List.enum_cons, List.foldl_cons] at h
    exact foldl_pres (P := fun s : ExtState => s.1 ≠ [])
      (fun s a _ => procCell_ne A E hdrs s a) _ _ (procCell_ne A E hdrs _ _) h
  · intro h
    unfold procRow
    rw [h]
    rfl

theorem dataPass_cons (A E hdrs : List String) (row : HtmlRow) (rest : List HtmlRow)
    (td : List Record) (cols : List String) :
    dataPass A E hdrs (row :: rest) td cols =
      if (procRow A E hdrs row cols).1 = []
      then dataPass A E hdrs rest td (procRow A E hdrs row cols).2
      else dataPass A E hdrs rest (td ++ [(procRow A E hdrs row cols).1])
        (procRow A E hdrs row cols).2 := rfl

theorem extractAux_true_eq (A E hdrs : List String) :
    ∀ (rows : List HtmlRow) (td : List Record) (cols : List String),
      extractAux A E true hdrs td cols rows = dataPass A E hdrs rows td cols := by
  intro rows
  induction rows with
  | nil => intro td cols; rfl
  | cons row rest ih =>
    intro td cols
    rw [extractAux_true_cons, dataPass_cons]
    by_cases h : (procRow A E hdrs row cols).1 = []
    · rw [if_pos h, if_pos h, ih]
    · rw [if_neg h, if_neg h, ih]

theorem extractAux_skip (A E : List String) :
    ∀ (pre rows2 : List HtmlRow) (hdrs : List String) (td : List Record) (cols : List String),
      (∀ r ∈ pre, rowHasTh r = false) →
      extractAux A E false hdrs td cols (pre ++ rows2) = extractAux A E false hdrs td cols rows2 := by
  intro pre
  induction pre with
  | nil => intro rows2 hdrs td cols _; rfl
  | cons r pr ih =>
    intro rows2 hdrs td cols h
    rw [List.cons_append, extractAux_false_cons, if_neg]
    · exact ih rows2 hdrs td cols (fun x hx => h x (List.mem_cons_of_mem r hx))
    · rw [h r (List.mem_cons_self r pr)]
      exact Bool.false_ne_true

theorem extractAux_empty (A E : List String) :
    ∀ (rows : List HtmlRow) (b : Bool) (hdrs : List String) (td : List Record) (cols : List String),
      (extractAux A E b hdrs td cols rows).1 = [] →
      td = [] ∧ (extractAux A E b hdrs td cols rows).2 = cols := by
  intro rows
  induction rows with
  | nil =>
    intro b hdrs td cols h
    rw [extractAux_nil_eq] at h ⊢
    exact ⟨h, rfl⟩
  | cons row rest ih =>
    intro b hdrs td cols h
    cases b with
    | false =>
      rw [extractAux_false_cons] at h ⊢
      by_cases hth : rowHasTh row = true
      · rw [if_pos hth] at h ⊢
        exact ih true _ td cols h
      · rw [if_neg hth] at h ⊢
        exact ih false hdrs td cols h
    | true =>
      rw [extractAux_true_cons] at h ⊢
      by_cases hnil : (procRow A E hdrs row cols).1 = []
      · rw [if_pos hnil] at h ⊢
        have h2 := ih true hdrs td _ h
        refine ⟨h2.1, ?_⟩
        rw [h2.2]
        exact procRow_empty_cols A E hdrs row cols hnil
      · rw [if_neg hnil] at h ⊢
        have h2 := ih true hdrs (td ++ [(procRow A E hdrs row cols).1]) _ h
        exact absurd h2.1 (by simp)

theorem filter_head_eq_find {α : Type} (p : α → Bool) :
    ∀ l : List α, (l.filter p).head? = l.find? p := by
  intro l
  induction l with
  | nil => rfl
  | cons a t ih =>
    by_cases h : p a = true
    · simp [List.filter_cons, List.find?_cons, h]
    · simp [List.filter_cons, List.find?_cons, h, ih]

/-- The end-to-end table of the spec: header row Name, Link; one data
row with text Alice and an anchor Profile carrying an href. -/
def demoTable : HtmlTable :=
  ⟨[⟨[⟨true, [], [HtmlNode.text "Name"]⟩, ⟨true, [], [HtmlNode.text "Link"]⟩]⟩,
    ⟨[⟨false, [], [HtmlNode.text "Alice"]⟩,
      ⟨false, [], [HtmlNode.elem "a" [("href", "http://x")] [HtmlNode.text "Profile"]]⟩]⟩]⟩

/-- Claim C1: extracting demoTable with attribute set href and
nested-element set a yields the ColumnRegistry
[name_content, link_content, link_a0_content, link_a0_href] in that
order and exactly one Record with exactly those four fields. -/
theorem end_to_end_extraction :
    extractTable ["href"] ["a"] demoTable =
      ([[("name_content", "Alice"), ("link_content", "Profile"),
         ("link_a0_content", "Profile"), ("link_a0_href", "http://x")]],
       ["name_content", "link_content", "link_a0_content", "link_a0_href"]) := by
  decide

/-- A table with a header row and one data row whose only td cell has
empty text, no attributes and no nested elements. -/
def emptyRowTable : HtmlTable :=
  ⟨[⟨[⟨true, [], [HtmlNode.text "H"]⟩]⟩, ⟨[⟨false, [], []⟩]⟩]⟩

/-- Claim C2, counterexample: the data row of emptyRowTable has all
cells empty (trimmed) and matches no attribute and no nested element,
yet extraction produces one Record for it, holding the empty h_content
field; the claim says it would produce no Record. -/
theorem empty_row_cex :
    (extractTable ["href"] ["a"] emptyRowTable).1 = [[("h_content", "")]] ∧
    (extractTable ["href"] ["a"] emptyRowTable).1 ≠ [] := by
  constructor
  · decide
  · decide

/-- Claim C2 as amended: a data row yields no Record exactly when it
has no td cells at all (a td cell always contributes its _content
field, even when empty); such a field-less row contributes nothing to
the record sequence and leaves the registry unchanged. -/
theorem empty_row_amended (A E hdrs : List String) (row : HtmlRow) (cols : List String) :
    ((procRow A E hdrs row cols).1 = [] ↔ row.cells.filter (fun c => !c.thFlag) = []) ∧
    (∀ (rest : List HtmlRow) (td : List Record),
      row.cells.filter (fun c => !c.thFlag) = [] →
      dataPass A E hdrs (row :: rest) td cols = dataPass A E hdrs rest td cols) := by
  refine ⟨procRow_empty_iff A E hdrs row cols, ?_⟩
  intro rest td h
  have h1 : (procRow A E hdrs row cols).1 = [] := (procRow_empty_iff A E hdrs row cols).mpr h
  rw [dataPass_cons, if_pos h1, procRow_empty_cols A E hdrs row cols h1]

/-- Witness for the amended C2 at a concrete field-less row. -/
theorem empty_row_amended_wit :
    dataPass ["href"] ["a"] ["h"] [⟨[]⟩] [] [] = dataPass ["href"] ["a"] ["h"] [] [] [] :=
  (empty_row_amended ["href"] ["a"] ["h"] ⟨[]⟩ []).2 [] [] (by rfl)

/-- Claim C3: when the rows of a table split as pre ++ hrow :: post with
no th cell in pre and a th cell in hrow, extraction equals the pure data
pass over post under the headers of hrow alone (so pre and hrow yield no
records, and later th rows never redefine headers); moreover row
processing ignores th cells entirely, so a later th-carrying row is
processed exactly like the row of its td cells. -/
theorem header_exclusivity (A E : List String) (pre : List HtmlRow) (hrow : HtmlRow)
    (post : List HtmlRow) (hpre : ∀ r ∈ pre, rowHasTh r = false) (hh : rowHasTh hrow = true) :
    extractTable A E ⟨pre ++ hrow :: post⟩ =
      dataPass A E (rowThHeaders hrow) post [] [] ∧
    ∀ (r : HtmlRow) (cols : List String),
      procRow A E (rowThHeaders hrow) r cols =
        procRow A E (rowThHeaders hrow) ⟨r.cells.filter (fun c => !c.thFlag)⟩ cols := by
  constructor
  · show extractAux A E false [] [] [] (pre ++ hrow :: post) = _
    rw [extractAux_skip A E pre (hrow :: post) [] [] [] hpre,
      extractAux_false_cons, if_pos hh, List.nil_append]
    exact extractAux_true_eq A E (rowThHeaders hrow) post [] []
  · intro r cols
    unfold procRow
    show _ = (((⟨r.cells.filter (fun c => !c.thFlag)⟩ : HtmlRow).cells.filter
      (fun c => !c.thFlag)).enum).foldl _ ([], cols)
    simp only [List.filter_filter, Bool.and_self]

def preRows : List HtmlRow := [⟨[⟨false, [], [HtmlNode.text "intro"]⟩]⟩]

def headerRowWit : HtmlRow := ⟨[⟨true, [], [HtmlNode.text "A"]⟩]⟩

def postRows : List HtmlRow :=
  [⟨[⟨true, [], [HtmlNode.text "B"]⟩, ⟨false, [], [HtmlNode.text "x"]⟩]⟩]

/-- Witness for C3 at a concrete table whose post part has a th row. -/
theorem header_exclusivity_wit :
    extractTable ["href"] ["a"] ⟨preRows ++ headerRowWit :: postRows⟩ =
      dataPass ["href"] ["a"] (rowThHeaders headerRowWit) postRows [] [] :=
  (header_exclusivity ["href"] ["a"] preRows headerRowWit postRows
    (by decide) (by decide)).1

/-- A table with no th cells anywhere and two td cells per row. -/
def noThTable : HtmlTable :=
  ⟨[⟨[⟨false, [], [HtmlNode.text "x"]⟩, ⟨false, [], [HtmlNode.text "y"]⟩]⟩]⟩

/-- Claim C4, counterexample: a table with no th cells anywhere and two
cells per row yields no columns at all (every row is skipped while
waiting for a header row), not the claimed Column0_content and
Column1_content. -/
theorem no_header_fallback_cex :
    extractTable ["href"] ["a"] noThTable = ([], []) ∧
    "Column0_content" ∉ (extractTable ["href"] ["a"] noThTable).2 := by
  constructor
  · decide
  · decide

/-- Claim C4 as amended: the positional fallback applies when index i is
absent from headers or headers[i] is the empty string (the truthiness
test of the source), and a table with no th cells anywhere produces no
records and no columns, because every row is skipped while the extractor
waits for a header row. -/
theorem base_column_name_amended :
    (∀ (headers : List String) (i : Nat) (h : String),
        headers.get? i = some h → h ≠ "" → baseColumnName headers i = h) ∧
    (∀ (headers : List String) (i : Nat),
        headers.get? i = none ∨ headers.get? i = some "" →
        baseColumnName headers i = "Column" ++ toString i) ∧
    (∀ (A E : List String) (t : HtmlTable),
        (∀ r ∈ t.rows, rowHasTh r = false) → extractTable A E t = ([], [])) := by
  refine ⟨?_, ?_, ?_⟩
  · intro headers i h hg hne
    unfold baseColumnName
    rw [hg]
    show (if (h == "") = true then "Column" ++ toString i else h) = h
    rw [if_neg (by simpa using hne)]
  · intro headers i hc
    unfold baseColumnName
    rcases hc with h | h
    · rw [h]
    · rw [h]
      rfl
  · intro A E t hall
    show extractAux A E false [] [] [] t.rows = ([], [])
    have h2 : t.rows = t.rows ++ [] := (List.append_nil t.rows).symm
    rw [h2, extractAux_skip A E t.rows [] [] [] [] hall]
    rfl

/-- Witness for the amended C4. -/
theorem base_column_name_amended_wit :
    baseColumnName ["name"] 0 = "name" ∧
    baseColumnName ["name"] 1 = "Column1" ∧
    extractTable ["href"] ["a"] noThTable = ([], []) :=
  ⟨base_column_name_amended.1 ["name"] 0 "name" rfl (by decide),
   (base_column_name_amended.2.1 ["name"] 1 (Or.inl rfl)).trans (by decide),
   base_column_name_amended.2.2 ["href"] ["a"] noThTable (by decide)⟩

/-- Claim C5: every key of every emitted Record is in the ColumnRegistry
of the table. -/
theorem registry_superset (A E : List String) (t : HtmlTable) (rec : Record)
    (hrec : rec ∈ (extractTable A E t).1) (k v : String) (hkv : (k, v) ∈ rec) :
    k ∈ (extractTable A E t).2 := by
  show k ∈ (extractAux A E false [] [] [] t.rows).2
  refine extractAux_sup A E t.rows false [] [] [] ?_ rec hrec k ?_
  · intro r hr
    exact absurd hr (List.not_mem_nil r)
  · unfold keysOf
    rw [List.mem_map]
    exact ⟨(k, v), hkv, rfl⟩

/-- Witness for C5 on the end-to-end table. -/
theorem registry_superset_wit :
    "name_content" ∈ (extractTable ["href"] ["a"] demoTable).2 :=
  registry_superset ["href"] ["a"] demoTable
    [("name_content", "Alice"), ("link_content", "Profile"),
     ("link_a0_content", "Profile"), ("link_a0_href", "http://x")]
    (by decide) "name_content" "Alice" (by decide)

/-- Claim C7: for a non-empty separator, the locator (nearest matching
preceding sibling via the filtered nearest-first list, then the text
before the first separator, normalized) coincides with the backward-search
formulation of the spec, and when no preceding sibling matches any
header selector the name is the empty string; both functions are total,
so there is no failure outcome. -/
theorem table_name_derivation (sels : List String) (sep : String) (sibs : List SibElem)
    (hsep : sep ≠ "") :
    tableNameOf sels sep sibs = tableNameSpec sels sep sibs ∧
    ((∀ e ∈ sibs, matchesAny sels e = false) → tableNameOf sels sep sibs = "") := by
  constructor
  · unfold tableNameOf tableNameSpec
    rw [filter_head_eq_find]
  · intro h
    unfold tableNameOf
    have h2 : sibs.filter (matchesAny sels) = [] := by
      rw [List.filter_eq_nil_iff]
      intro a ha
      rw [h a ha]
      exact Bool.false_ne_true
    rw [h2]
    rfl

def sibsWit : List SibElem := [⟨"p", [], "x"⟩, ⟨"h2", [], "Sales: Q1"⟩]

/-- Witness for C7 with the default selectors and separator. -/
theorem table_name_derivation_wit :
    tableNameOf ["h1", "h2", ".header"] ":" sibsWit =
      tableNameSpec ["h1", "h2", ".header"] ":" sibsWit :=
  (table_name_derivation ["h1", "h2", ".header"] ":" sibsWit (by decide)).1

/-- Claim C8: a table whose extraction yields zero Records has an empty
ColumnRegistry, and the writer produces no file for it (the none
outcome is the informational no-data notice, not a failure). -/
theorem empty_result_no_write (A E : List String) (t : HtmlTable) (base : String)
    (idx : Nat) (tname : String) (h : (extractTable A E t).1 = []) :
    (extractTable A E t).2 = [] ∧
    writeOutcome base idx tname (extractTable A E t).1 = none := by
  constructor
  · exact (extractAux_empty A E t.rows false [] [] [] h).2
  · rw [h]
    rfl

/-- A table with header cells but no data rows. -/
def headerOnlyTable : HtmlTable := ⟨[⟨[⟨true, [], [HtmlNode.text "H"]⟩]⟩]⟩

/-- Witness for C8 on a header-only table. -/
theorem empty_result_no_write_wit :
    (extractTable ["href"] ["a"] headerOnlyTable).2 = [] ∧
    writeOutcome "report" 0 "" (extractTable ["href"] ["a"] headerOnlyTable).1 = none :=
  empty_result_no_write ["href"] ["a"] headerOnlyTable "report" 0 "" (by decide)

/-- Claim C9: the output file name is baseName.table_index.csv for an
empty table name and baseName.table_index.tableName.csv otherwise. -/
theorem output_file_name_rule (base : String) (idx : Nat) (tname : String) :
    (tname = "" → outputFileName base idx tname = base ++ ".table_" ++ toString idx ++ ".csv") ∧
    (tname ≠ "" →
      outputFileName base idx tname =
        base ++ ".table_" ++ toString idx ++ "." ++ tname ++ ".csv") := by
  constructor
  · intro h
    unfold outputFileName
    rw [if_neg (by simp [h])]
  · intro h
    unfold outputFileName
    rw [if_pos h]

/-- Witness for C9 at the instances named by the spec. -/
theorem output_file_name_rule_wit :
    outputFileName "report" 2 "sales_q1" = "report.table_2.sales_q1.csv" ∧
    outputFileName "report" 2 "" = "report.table_2.csv" :=
  ⟨((output_file_name_rule "report" 2 "sales_q1").2 (by decide)).trans (by decide),
   ((output_file_name_rule "report" 2 "").1 rfl).trans (by decide)⟩
